import Mathlib

/-!
Verification of the training-driver scripts `wire_image_denoise.py` and
`wire_occupancy.py`.

The development shallowly embeds the parts of the two scripts that the
claims are about: the learning-rate schedule, the per-epoch minibatch
partition, the epoch loss accumulation, the reconstruction-buffer write,
the best-reconstruction tracking, the per-epoch metric block, the
occupancy-volume crop, the IoU metric, and the control flow around the
remote-tracker logging calls.  Machine floats are modelled by `ℚ` (or `ℝ`
where a transcendental function appears); tensors indexed by flat sample
indices are modelled by lists or by functions out of `ℕ`.
-/

namespace Wire

/-! ### Learning-rate schedule

`wire_image_denoise.py` line 134: `scheduler = LambdaLR(optim, lambda x: 0.1 ** min(x / niters, 1))`.
`wire_occupancy.py` line 117:     `scheduler = LambdaLR(optim, lambda x: 0.2 ** min(x / niters, 1))`.
`LambdaLR` multiplies the optimizer's base rate by the lambda's value at the
current epoch, so the lambda is the learning-rate multiplier. -/

/-- The `LambdaLR` lambda of both scripts: `d ** min(epoch / niters, 1)`
with decay factor `d` (`0.1` in the image script, `0.2` in the occupancy
script) and total epoch budget `niters`.  Real exponentiation models
Python's `**` on floats. -/
noncomputable def schedulerLambda (d : ℝ) (niters : ℕ) (epoch : ℕ) : ℝ :=
  d ^ min ((epoch : ℝ) / (niters : ℝ)) 1

/-! ### Optimizer base learning rate

`wire_image_denoise.py` lines 129-131:
`optim = torch.optim.Adam(lr=learning_rate * min(1, maxpoints / (H * W)), params=...)`.
`wire_occupancy.py` line 114: `optim = torch.optim.Adam(lr=learning_rate, params=...)`. -/

/-- Initial learning rate of the image-denoising optimizer:
`learning_rate * min(1, maxpoints / (H * W))` where `n = H * W` is the
number of samples and `maxpoints` the batch size. -/
def imageOptimLR (learning_rate : ℚ) (maxpoints n : ℕ) : ℚ :=
  learning_rate * min 1 ((maxpoints : ℚ) / (n : ℚ))

/-- Initial learning rate of the occupancy optimizer: the configured base
rate, unscaled. -/
def occOptimLR (learning_rate : ℚ) : ℚ :=
  learning_rate

/-! ### Minibatch partition

`wire_image_denoise.py` lines 156-161 (and `wire_occupancy.py` lines
135-141): each epoch draws `indices = torch.randperm(n)` and then iterates
`for b_idx in range(0, n, maxpoints): b_indices = indices[b_idx : min(n, b_idx + maxpoints)]`.
The permuted index list is modelled as an arbitrary list `l` that is a
permutation of `List.range n` (the uniform distribution of `randperm` is a
property of the library, outside the embedding); the loop is the
chunking of `l` into consecutive slices of `bs = maxpoints` elements (the
`min` with `n` matches Python slice clamping, which `take`/`drop` give). -/

/-- The minibatch slices `indices[b_idx : b_idx + bs]` for
`b_idx = 0, bs, 2*bs, ...`, produced in loop order.  `bs = 0` (for which
Python's `range(0, n, 0)` raises and which the scripts never use, since
`maxpoints > 0`) returns `[]`. -/
def batchChunks {α : Type*} (bs : ℕ) : List α → List (List α)
  | [] => []
  | x :: xs =>
    if h : bs = 0 then []
    else (x :: xs).take bs :: batchChunks bs ((x :: xs).drop bs)
termination_by l => l.length
decreasing_by
  simp only [List.length_drop, List.length_cons]
  omega

theorem batchChunks_nil {α : Type*} (bs : ℕ) : batchChunks bs ([] : List α) = [] := by
  rw [batchChunks]

theorem batchChunks_cons {α : Type*} {bs : ℕ} (hbs : bs ≠ 0) (x : α) (xs : List α) :
    batchChunks bs (x :: xs) =
      (x :: xs).take bs :: batchChunks bs ((x :: xs).drop bs) := by
  rw [batchChunks]
  exact dif_neg hbs

theorem batchChunks_of_ne_nil {α : Type*} {bs : ℕ} {l : List α}
    (hbs : bs ≠ 0) (hl : l ≠ []) :
    batchChunks bs l = l.take bs :: batchChunks bs (l.drop bs) := by
  cases l with
  | nil => exact absurd rfl hl
  | cons x xs => exact batchChunks_cons hbs x xs

theorem batchChunks_ne_nil {α : Type*} {bs : ℕ} {l : List α}
    (hbs : bs ≠ 0) (hl : l ≠ []) :
    batchChunks bs l ≠ [] := by
  rw [batchChunks_of_ne_nil hbs hl]
  exact List.cons_ne_nil _ _

theorem batchChunks_join_aux {α : Type*} (bs : ℕ) (hbs : 0 < bs) :
    ∀ (n : ℕ) (l : List α), l.length ≤ n → (batchChunks bs l).flatten = l := by
  intro n
  induction n with
  | zero =>
    intro l hl
    rw [List.length_eq_zero.mp (Nat.le_zero.mp hl), batchChunks_nil]
    rfl
  | succ n ih =>
    intro l hl
    rcases eq_or_ne l [] with rfl | hne
    · rw [batchChunks_nil]; rfl
    · rw [batchChunks_of_ne_nil (Nat.pos_iff_ne_zero.mp hbs) hne, List.flatten_cons]
      rw [ih (l.drop bs) ?_, List.take_append_drop]
      have : (l.drop bs).length = l.length - bs := List.length_drop bs l
      omega

theorem batchChunks_join {α : Type*} (bs : ℕ) (hbs : 0 < bs) (l : List α) :
    (batchChunks bs l).flatten = l :=
  batchChunks_join_aux bs hbs l.length l le_rfl

theorem batchChunks_length_map_aux {α : Type*} (bs : ℕ) (hbs : 0 < bs) :
    ∀ (n : ℕ) (l : List α), l.length ≤ n →
      (batchChunks bs l).map List.length =
        List.replicate (l.length / bs) bs ++
          (if l.length % bs = 0 then [] else [l.length % bs]) := by
  intro n
  induction n with
  | zero =>
    intro l hl
    rw [List.length_eq_zero.mp (Nat.le_zero.mp hl), batchChunks_nil]
    simp
  | succ n ih =>
    intro l hl
    rcases eq_or_ne l [] with rfl | hne
    · rw [batchChunks_nil]; simp
    · have hpos : 0 < l.length := List.length_pos.mpr hne
      rw [batchChunks_of_ne_nil (Nat.pos_iff_ne_zero.mp hbs) hne, List.map_cons]
      have hdrop : (l.drop bs).length = l.length - bs := List.length_drop bs l
      rcases lt_or_le l.length bs with hsmall | hbig
      · have h0 : l.drop bs = [] := by
          rw [← List.length_eq_zero, hdrop]; omega
        rw [h0, batchChunks_nil]
        have htake : (l.take bs).length = l.length := by
          rw [List.length_take]; omega
        have hdiv : l.length / bs = 0 := Nat.div_eq_of_lt hsmall
        have hmod : l.length % bs = l.length := Nat.mod_eq_of_lt hsmall
        have hmodne : ¬ l.length % bs = 0 := by omega
        simp only [htake, hdiv, hmod, List.replicate_zero, List.nil_append,
          List.map_nil]
        rw [if_neg (by omega : ¬ l.length = 0)]
      · have htake : (l.take bs).length = bs := by
          rw [List.length_take]; omega
        rw [ih (l.drop bs) (by omega)]
        have hdivstep : l.length / bs = (l.length - bs) / bs + 1 :=
          Nat.div_eq_sub_div hbs hbig
        have hmodstep : l.length % bs = (l.length - bs) % bs :=
          Nat.mod_eq_sub_mod hbig
        rw [htake, hdrop, hdivstep, ← hmodstep, List.replicate_succ]
        rfl

theorem batchChunks_length_map {α : Type*} (bs : ℕ) (hbs : 0 < bs) (l : List α) :
    (batchChunks bs l).map List.length =
      List.replicate (l.length / bs) bs ++
        (if l.length % bs = 0 then [] else [l.length % bs]) :=
  batchChunks_length_map_aux bs hbs l.length l le_rfl

theorem batchChunks_dropLast_length_aux {α : Type*} (bs : ℕ) (hbs : 0 < bs) :
    ∀ (n : ℕ) (l : List α), l.length ≤ n →
      ∀ c ∈ (batchChunks bs l).dropLast, c.length = bs := by
  intro n
  induction n with
  | zero =>
    intro l hl
    rw [List.length_eq_zero.mp (Nat.le_zero.mp hl), batchChunks_nil]
    intro c hc
    simp at hc
  | succ n ih =>
    intro l hl
    rcases eq_or_ne l [] with rfl | hne
    · rw [batchChunks_nil]; intro c hc; simp at hc
    · rw [batchChunks_of_ne_nil (Nat.pos_iff_ne_zero.mp hbs) hne]
      have hdrop : (l.drop bs).length = l.length - bs := List.length_drop bs l
      rcases eq_or_ne (l.drop bs) [] with hd | hd
      · rw [hd, batchChunks_nil]
        intro c hc
        simp at hc
      · rw [List.dropLast_cons_of_ne_nil
          (batchChunks_ne_nil (Nat.pos_iff_ne_zero.mp hbs) hd)]
        intro c hc
        rcases List.mem_cons.mp hc with rfl | hc2
        · have hbig : bs < l.length := by
            have : 0 < (l.drop bs).length := List.length_pos.mpr hd
            omega
          rw [List.length_take]
          omega
        · exact ih (l.drop bs) (by omega) c hc2

theorem batchChunks_dropLast_length {α : Type*} (bs : ℕ) (hbs : 0 < bs)
    (l : List α) :
    ∀ c ∈ (batchChunks bs l).dropLast, c.length = bs :=
  batchChunks_dropLast_length_aux bs hbs l.length l le_rfl

/-! ### Minibatch training step

`wire_image_denoise.py` lines 162-174 (and `wire_occupancy.py` lines
142-153): for a minibatch `b_indices`,

  `pixelvalues = model(b_coords)`
  `with torch.no_grad(): rec[:, b_indices, :] = pixelvalues`
  `loss = ((pixelvalues - gt_noisy[:, b_indices, :]) ** 2).mean()`
  `optim.zero_grad(); loss.backward(); optim.step()`

The model is an abstract map from a parameter state `P` and a flat sample
index to a predicted value (the coordinate lookup is folded into the
index); the optimizer step is an abstract map from the current parameter
state and the loss graph of the step — which contains `pixelvalues` and
the targets but never reads `rec` — to the updated parameter state. -/

/-- Mean squared error of the predictions against the targets over the
indices of one minibatch: `((pixelvalues - gt_noisy[b_indices]) ** 2).mean()`. -/
def batchLoss (pred target : ℕ → ℚ) (batch : List ℕ) : ℚ :=
  (batch.map (fun i => (pred i - target i) ^ 2)).sum / (batch.length : ℚ)

/-- One minibatch step: returns the updated reconstruction buffer
(`rec[b_indices] = pixelvalues`, all other entries untouched), the
minibatch loss, and the updated parameter state. -/
def trainStep {P : Type*} (model : P → ℕ → ℚ) (optStep : P → ℚ → P)
    (target : ℕ → ℚ) (p : P) (rec : ℕ → ℚ) (batch : List ℕ) :
    (ℕ → ℚ) × ℚ × P :=
  let pixelvalues := fun i => model p i
  let rec2 := fun i => if i ∈ batch then pixelvalues i else rec i
  let loss := batchLoss pixelvalues target batch
  (rec2, loss, optStep p loss)

/-! ### Epoch loop: loss accumulation

`wire_image_denoise.py` lines 159-176 (and `wire_occupancy.py` lines
138-157): `train_loss = cnt = 0`, and for every minibatch
`train_loss += loss.item(); cnt += 1`; the epoch loss is then reported as
`train_loss / cnt`. -/

/-- The inner minibatch loop of one epoch, threading the parameter state,
the reconstruction buffer, the running `train_loss` and the minibatch
counter `cnt` through the minibatches in order. -/
def epochLoop {P : Type*} (model : P → ℕ → ℚ) (optStep : P → ℚ → P)
    (target : ℕ → ℚ) :
    P → (ℕ → ℚ) → ℚ → ℕ → List (List ℕ) → P × (ℕ → ℚ) × ℚ × ℕ
  | p, rec, train_loss, cnt, [] => (p, rec, train_loss, cnt)
  | p, rec, train_loss, cnt, b :: rest =>
    epochLoop model optStep target
      (trainStep model optStep target p rec b).2.2
      (trainStep model optStep target p rec b).1
      (train_loss + (trainStep model optStep target p rec b).2.1)
      (cnt + 1) rest

/-- The sequence of per-minibatch losses produced by the epoch, each
computed at the parameter state current when its minibatch is processed. -/
def epochLossSeq {P : Type*} (model : P → ℕ → ℚ) (optStep : P → ℚ → P)
    (target : ℕ → ℚ) : P → (ℕ → ℚ) → List (List ℕ) → List ℚ
  | _, _, [] => []
  | p, rec, b :: rest =>
    (trainStep model optStep target p rec b).2.1 ::
      epochLossSeq model optStep target
        (trainStep model optStep target p rec b).2.2
        (trainStep model optStep target p rec b).1 rest

theorem epochLoop_trainLoss {P : Type*} (model : P → ℕ → ℚ)
    (optStep : P → ℚ → P) (target : ℕ → ℚ) :
    ∀ (bs : List (List ℕ)) (p : P) (rec : ℕ → ℚ) (acc : ℚ) (cnt : ℕ),
      (epochLoop model optStep target p rec acc cnt bs).2.2.1 =
        acc + (epochLossSeq model optStep target p rec bs).sum := by
  intro bs
  induction bs with
  | nil => intro p rec acc cnt; simp [epochLoop, epochLossSeq]
  | cons b rest ih =>
    intro p rec acc cnt
    rw [epochLoop, epochLossSeq, List.sum_cons, ih, add_assoc]

theorem epochLoop_cnt {P : Type*} (model : P → ℕ → ℚ)
    (optStep : P → ℚ → P) (target : ℕ → ℚ) :
    ∀ (bs : List (List ℕ)) (p : P) (rec : ℕ → ℚ) (acc : ℚ) (cnt : ℕ),
      (epochLoop model optStep target p rec acc cnt bs).2.2.2 =
        cnt + bs.length := by
  intro bs
  induction bs with
  | nil => intro p rec acc cnt; simp [epochLoop]
  | cons b rest ih =>
    intro p rec acc cnt
    rw [epochLoop, ih, List.length_cons]
    omega

theorem epochLossSeq_length {P : Type*} (model : P → ℕ → ℚ)
    (optStep : P → ℚ → P) (target : ℕ → ℚ) :
    ∀ (bs : List (List ℕ)) (p : P) (rec : ℕ → ℚ),
      (epochLossSeq model optStep target p rec bs).length = bs.length := by
  intro bs
  induction bs with
  | nil => intro p rec; rfl
  | cons b rest ih =>
    intro p rec
    rw [epochLossSeq, List.length_cons, List.length_cons, ih]

/-! ### Best-reconstruction tracking

`wire_image_denoise.py` lines 149-150 and 200-202:

  `best_mse = torch.tensor(float("inf")); best_img = None`
  `if (mse_array[epoch] < best_mse) or (epoch == 0): best_mse = mse_array[epoch]; best_img = imrec`

`wire_occupancy.py` lines 126-127 and 177-179:

  `best_mse = float("inf"); best_img = None`
  `if lossval < best_mse: best_mse = lossval; best_img = copy.deepcopy(im_estim)`

Note that the occupancy script compares `lossval`, the loss of the LAST
minibatch of the epoch, not the IoU stored in `mse_array[idx]`.  The
un-set initial values (`inf`, `None`) are modelled by `none`; over `ℚ`
(no NaN) any value compares below `inf`.  A run is modelled by folding the
per-epoch update over the trace of per-epoch values paired with the
epoch-end reconstruction buffer. -/

/-- `v < best` where `best : Option ℚ` models `best_mse` initialised to
`float("inf")` (`none`). -/
def ltBest (v : ℚ) : Option ℚ → Bool
  | none => true
  | some b => decide (v < b)

/-- The occupancy script's per-epoch best update (lines 177-179), applied
to the state `(best_mse, best_img)` with this epoch's `lossval` and
epoch-end buffer. -/
def occBestStep {B : Type*} (s : Option ℚ × Option B) (lossval : ℚ)
    (buf : B) : Option ℚ × Option B :=
  if ltBest lossval s.1 then (some lossval, some buf) else s

/-- Folding the occupancy best update over the epochs of a run. -/
def occBestRun {B : Type*} :
    Option ℚ × Option B → List (ℚ × B) → Option ℚ × Option B
  | s, [] => s
  | s, (v, buf) :: rest => occBestRun (occBestStep s v buf) rest

/-- The image script's per-epoch best update (lines 200-202): the
comparison value is `mse_array[epoch]` (MSE against the clean ground
truth) and the first epoch qualifies explicitly. -/
def imageBestStep {B : Type*} (s : Option ℚ × Option B) (epoch : ℕ)
    (mse : ℚ) (buf : B) : Option ℚ × Option B :=
  if ltBest mse s.1 || (epoch == 0) then (some mse, some buf) else s

/-- Folding the image best update over the epochs of a run, threading the
epoch counter. -/
def imageBestRun {B : Type*} :
    Option ℚ × Option B → ℕ → List (ℚ × B) → Option ℚ × Option B
  | s, _, [] => s
  | s, e, (v, buf) :: rest => imageBestRun (imageBestStep s e v buf) (e + 1) rest

/-- The running best value as the code computes it (strict comparison
against the previous best, starting from `inf`). -/
def runningBest : Option ℚ → List ℚ → Option ℚ
  | b, [] => b
  | b, v :: r => runningBest (if ltBest v b then some v else b) r

/-- The claim's reading of the occupancy best update: tracked metric IoU
(higher is better), snapshot iff the IoU strictly improves on the best
IoU seen or the epoch is the first.  Stated only to be compared with the
code's `occBestStep`. -/
def claimOccBestStep {B : Type*} (s : Option ℚ × Option B) (epoch : ℕ)
    (iou : ℚ) (buf : B) : Option ℚ × Option B :=
  if (match s.1 with
      | none => true
      | some b => decide (b < iou)) || (epoch == 0) then
    (some iou, some buf)
  else s

/-- Folding the claim's occupancy best update over the epochs of a run. -/
def claimOccBestRun {B : Type*} :
    Option ℚ × Option B → ℕ → List (ℚ × B) → Option ℚ × Option B
  | s, _, [] => s
  | s, e, (v, buf) :: rest =>
    claimOccBestRun (claimOccBestStep s e v buf) (e + 1) rest

theorem runningBest_some : ∀ (r : List ℚ) (b : ℚ),
    runningBest (some b) r = some (r.foldl min b) := by
  intro r
  induction r with
  | nil => intro b; rfl
  | cons v rest ih =>
    intro b
    rw [runningBest, List.foldl_cons]
    rcases lt_or_le v b with h | h
    · rw [if_pos (by simpa [ltBest] using h), min_comm b v,
        min_eq_left h.le, ih]
    · rw [if_neg (by simpa [ltBest] using not_lt.mpr h), min_comm b v,
        min_eq_right h, ih]

theorem runningBest_none_eq_min (v : ℚ) (r : List ℚ) :
    runningBest none (v :: r) = some (r.foldl min v) := by
  rw [runningBest]
  have h : ltBest v none = true := rfl
  rw [if_pos h]
  exact runningBest_some r v

theorem occBestRun_fst {B : Type*} : ∀ (ts : List (ℚ × B))
    (s : Option ℚ × Option B),
    (occBestRun s ts).1 = runningBest s.1 (ts.map Prod.fst) := by
  intro ts
  induction ts with
  | nil => intro s; rfl
  | cons t rest ih =>
    intro s
    rw [occBestRun, List.map_cons, runningBest, ih]
    rcases t with ⟨v, buf⟩
    by_cases h : ltBest v s.1
    · rw [occBestStep, if_pos h, if_pos h]
    · rw [occBestStep, if_neg h, if_neg h]

theorem occBestRun_append {B : Type*} : ∀ (ts : List (ℚ × B))
    (s : Option ℚ × Option B) (v : ℚ) (buf : B),
    occBestRun s (ts ++ [(v, buf)]) = occBestStep (occBestRun s ts) v buf := by
  intro ts
  induction ts with
  | nil => intro s v buf; rfl
  | cons t rest ih =>
    intro s v buf
    rcases t with ⟨w, b⟩
    rw [List.cons_append, occBestRun, occBestRun, ih]

theorem imageBestRun_pos_eq_occ {B : Type*} : ∀ (ts : List (ℚ × B))
    (s : Option ℚ × Option B) (e : ℕ), e ≠ 0 →
    imageBestRun s e ts = occBestRun s ts := by
  intro ts
  induction ts with
  | nil => intro s e he; rfl
  | cons t rest ih =>
    intro s e he
    rcases t with ⟨v, buf⟩
    rw [imageBestRun, occBestRun, ih _ _ (by omega)]
    have : (e == 0) = false := by simpa using he
    rw [imageBestStep, occBestStep, this, Bool.or_false]

theorem imageBestRun_zero_eq_occ {B : Type*} : ∀ (ts : List (ℚ × B)),
    imageBestRun ((none, none) : Option ℚ × Option B) 0 ts =
      occBestRun (none, none) ts := by
  intro ts
  cases ts with
  | nil => rfl
  | cons t rest =>
    rcases t with ⟨v, buf⟩
    rw [imageBestRun, occBestRun, imageBestRun_pos_eq_occ rest _ 1 one_ne_zero]
    rw [imageBestStep, occBestStep]
    rfl

/-! ### Per-epoch metric block of the image script

`wire_image_denoise.py` lines 180-191:

  `mse_loss_array[epoch] = ((gt_noisy - rec) ** 2).mean().item()`
  `mse_array[epoch]      = ((gt - rec) ** 2).mean().item()`
  `psnrval = -10 * torch.log10(mse_array[epoch])`

The flattened tensors are modelled as value lists of equal length. -/

/-- Elementwise mean of squared differences, `((a - b) ** 2).mean()`. -/
def mseOf (a b : List ℚ) : ℚ :=
  ((a.zip b).map (fun p => (p.1 - p.2) ^ 2)).sum / ((a.zip b).length : ℚ)

/-- `-10 * log10(m)`, the PSNR value printed from an MSE `m`. -/
noncomputable def psnrOf (m : ℚ) : ℝ :=
  -10 * Real.logb 10 (m : ℝ)

/-- The per-epoch metric block: the noisy-observation MSE stored in
`mse_loss_array`, the ground-truth MSE stored in `mse_array`, and the
reported `psnrval`, in source order. -/
noncomputable def epochMetricsBlock (rec gt gt_noisy : List ℚ) : ℚ × ℚ × ℝ :=
  (mseOf rec gt_noisy, mseOf rec gt, psnrOf (mseOf rec gt))

end Wire

/-- C2 (counterexample): the per-epoch PSNR is not computed from the MSE
against the noisy observation.  With reconstruction buffer `[0]`, clean
ground truth `[1]` and noisy observation `[10]`, the reported `psnrval`
is `0` (from ground-truth MSE `1`) while the PSNR the claim prescribes,
computed from the noisy-observation MSE `100`, is negative. -/
theorem epoch_psnr_source_counterexample :
    (Wire.epochMetricsBlock [0] [1] [10]).2.2 = 0 ∧
    Wire.psnrOf (Wire.mseOf [0] [10]) < 0 ∧
    (Wire.epochMetricsBlock [0] [1] [10]).2.2 ≠
      Wire.psnrOf (Wire.mseOf [0] [10]) := by
  have hgt : Wire.mseOf [0] [1] = 1 := by
    norm_num [Wire.mseOf]
  have hnoisy : Wire.mseOf [0] [10] = 100 := by
    norm_num [Wire.mseOf]
  have h0 : (Wire.epochMetricsBlock [0] [1] [10]).2.2 = 0 := by
    show Wire.psnrOf (Wire.mseOf [0] [1]) = 0
    rw [hgt, Wire.psnrOf]
    norm_num [Real.logb_one]
  have hneg : Wire.psnrOf (Wire.mseOf [0] [10]) < 0 := by
    rw [hnoisy, Wire.psnrOf]
    have hpos : 0 < Real.logb 10 ((100 : ℚ) : ℝ) :=
      Real.logb_pos (by norm_num) (by norm_num)
    nlinarith
  exact ⟨h0, hneg, by rw [h0]; exact ne_of_gt hneg⟩

/-- C2 (amended): the PSNR reported each epoch is computed from the MSE
between the Reconstruction Buffer and the clean ground truth — it does
not depend on the noisy observation at all — while the MSE against the
noisy observation is recorded separately (as `mse_loss_array`); moreover
the reported PSNR is strictly decreasing in the MSE it is computed from,
so it orders epochs by ground-truth MSE. -/
theorem epoch_psnr_from_ground_truth (rec gt noisy noisy2 : List ℚ)
    (m₁ m₂ : ℚ) (hm₁ : 0 < m₁) (hm : m₁ < m₂) :
    (Wire.epochMetricsBlock rec gt noisy).2.2 =
      Wire.psnrOf (Wire.mseOf rec gt) ∧
    (Wire.epochMetricsBlock rec gt noisy).2.2 =
      (Wire.epochMetricsBlock rec gt noisy2).2.2 ∧
    (Wire.epochMetricsBlock rec gt noisy).1 = Wire.mseOf rec noisy ∧
    Wire.psnrOf m₂ < Wire.psnrOf m₁ := by
  refine ⟨rfl, rfl, rfl, ?_⟩
  rw [Wire.psnrOf, Wire.psnrOf]
  have hlog : Real.logb 10 (m₁ : ℝ) < Real.logb 10 (m₂ : ℝ) :=
    Real.logb_lt_logb (by norm_num) (by exact_mod_cast hm₁) (by exact_mod_cast hm)
  nlinarith

/-- Witness for `epoch_psnr_from_ground_truth` at buffer `[0]`, ground
truth `[1]`, noisy observations `[10]` and `[3]`, MSEs `1 < 2`. -/
theorem epoch_psnr_from_ground_truth_witness :
    (Wire.epochMetricsBlock [0] [1] [10]).2.2 =
      Wire.psnrOf (Wire.mseOf [0] [1]) ∧
    (Wire.epochMetricsBlock [0] [1] [10]).2.2 =
      (Wire.epochMetricsBlock [0] [1] [3]).2.2 ∧
    (Wire.epochMetricsBlock [0] [1] [10]).1 = Wire.mseOf [0] [10] ∧
    Wire.psnrOf 2 < Wire.psnrOf 1 :=
  epoch_psnr_from_ground_truth [0] [1] [10] [3] 1 2 (by norm_num) (by norm_num)

namespace Wire

/-! ### Occupancy volume crop

`wire_occupancy.py` lines 80-84:

  `hidx, widx, tidx = np.where(im > 0.99)`
  `im = im[hidx.min() : hidx.max(), widx.min() : widx.max(), tidx.min() : tidx.max()]`

The volume is a function of three indices together with its dimensions
`(H, W, T)`.  `np.where` returns, per axis, the coordinates of the
above-threshold samples; `.min()`/`.max()` over those coordinate arrays
are the min/max over the set of axis indices carrying a hit.  The Python
slice `[lo : hi]` keeps indices `lo, ..., hi - 1`: the upper bound is
exclusive. -/

/-- The `i`-axis coordinates (in order) carrying some sample above the
threshold: the distinct values of `hidx = np.where(im > 0.99)[0]`. -/
def aboveH (H W T : ℕ) (f : ℕ → ℕ → ℕ → ℚ) (θ : ℚ) : List ℕ :=
  (List.range H).filter
    (fun i => decide (∃ j ∈ Finset.range W, ∃ k ∈ Finset.range T, θ < f i j k))

/-- The `j`-axis coordinates carrying some sample above the threshold. -/
def aboveW (H W T : ℕ) (f : ℕ → ℕ → ℕ → ℚ) (θ : ℚ) : List ℕ :=
  (List.range W).filter
    (fun j => decide (∃ i ∈ Finset.range H, ∃ k ∈ Finset.range T, θ < f i j k))

/-- The `k`-axis coordinates carrying some sample above the threshold. -/
def aboveT (H W T : ℕ) (f : ℕ → ℕ → ℕ → ℚ) (θ : ℚ) : List ℕ :=
  (List.range T).filter
    (fun k => decide (∃ i ∈ Finset.range H, ∃ j ∈ Finset.range W, θ < f i j k))

/-- The slice bounds `((hidx.min(), hidx.max()), (widx.min(), widx.max()),
(tidx.min(), tidx.max()))` of the crop; `none` when some axis has no hit
(where the Python `.min()` of an empty array raises). -/
def cropBounds (H W T : ℕ) (f : ℕ → ℕ → ℕ → ℚ) (θ : ℚ) :
    Option ((ℕ × ℕ) × (ℕ × ℕ) × (ℕ × ℕ)) := do
  let hmin ← (aboveH H W T f θ).min?
  let hmax ← (aboveH H W T f θ).max?
  let wmin ← (aboveW H W T f θ).min?
  let wmax ← (aboveW H W T f θ).max?
  let tmin ← (aboveT H W T f θ).min?
  let tmax ← (aboveT H W T f θ).max?
  pure ((hmin, hmax), (wmin, wmax), (tmin, tmax))

/-- Shape of the cropped volume `im[hmin:hmax, wmin:wmax, tmin:tmax]`:
Python slices exclude the upper index, so each axis has `max - min`
samples. -/
def croppedDims (b : (ℕ × ℕ) × (ℕ × ℕ) × (ℕ × ℕ)) : ℕ × ℕ × ℕ :=
  (b.1.2 - b.1.1, b.2.1.2 - b.2.1.1, b.2.2.2 - b.2.2.1)

/-- Sample values of the cropped volume: entry `(i, j, k)` of the slice is
entry `(hmin + i, wmin + j, tmin + k)` of the original. -/
def croppedData (f : ℕ → ℕ → ℕ → ℚ)
    (b : (ℕ × ℕ) × (ℕ × ℕ) × (ℕ × ℕ)) : ℕ → ℕ → ℕ → ℚ :=
  fun i j k => f (b.1.1 + i) (b.2.1.1 + j) (b.2.2.1 + k)

/-- Number of samples of an `H × W × T` volume strictly above the
threshold. -/
def countAbove (H W T : ℕ) (f : ℕ → ℕ → ℕ → ℚ) (θ : ℚ) : ℕ :=
  ∑ i ∈ Finset.range H, ∑ j ∈ Finset.range W, ∑ k ∈ Finset.range T,
    if θ < f i j k then 1 else 0

/-- A `2 × 2 × 2` occupancy volume with value `1` at `(0,0,0)` and
`(1,1,1)` and `0` elsewhere: both corner samples exceed the crop
threshold `0.99`. -/
def vol2 : ℕ → ℕ → ℕ → ℚ := fun i j k =>
  if i = 0 ∧ j = 0 ∧ k = 0 then 1 else if i = 1 ∧ j = 1 ∧ k = 1 then 1 else 0

end Wire

/-- C5: the crop is not the tightest bounding box containing all samples
above the threshold.  On the `2 × 2 × 2` volume with above-threshold
samples at `(0,0,0)` and `(1,1,1)` (so the tightest box is the whole
volume), the computed slice bounds are `[0:1]` on every axis — the
exclusive upper slice index drops the hit at the maximal coordinate — and
the cropped volume is `1 × 1 × 1` containing just one of the two
above-threshold samples. -/
theorem crop_loses_boundary_sample :
    Wire.countAbove 2 2 2 Wire.vol2 (99/100) = 2 ∧
    (99 : ℚ)/100 < Wire.vol2 1 1 1 ∧
    Wire.cropBounds 2 2 2 Wire.vol2 (99/100) =
      some ((0, 1), (0, 1), (0, 1)) ∧
    Wire.croppedDims ((0, 1), (0, 1), (0, 1)) = (1, 1, 1) ∧
    Wire.countAbove 1 1 1
      (Wire.croppedData Wire.vol2 ((0, 1), (0, 1), (0, 1))) (99/100) = 1 := by
  have hH : Wire.aboveH 2 2 2 Wire.vol2 (99/100) = [0, 1] := by
    have h0 : (∃ j, j < 2 ∧ ∃ k, k < 2 ∧ (99 : ℚ)/100 < Wire.vol2 0 j k) :=
      ⟨0, by norm_num, 0, by norm_num, by norm_num [Wire.vol2]⟩
    have h1 : (∃ j, j < 2 ∧ ∃ k, k < 2 ∧ (99 : ℚ)/100 < Wire.vol2 1 j k) :=
      ⟨1, by norm_num, 1, by norm_num, by norm_num [Wire.vol2]⟩
    show List.filter _ (List.range 2) = [0, 1]
    rw [show List.range 2 = [0, 1] from rfl]
    rw [List.filter_cons, List.filter_cons]
    simp [h0, h1]
  have hW : Wire.aboveW 2 2 2 Wire.vol2 (99/100) = [0, 1] := by
    have h0 : (∃ i, i < 2 ∧ ∃ k, k < 2 ∧ (99 : ℚ)/100 < Wire.vol2 i 0 k) :=
      ⟨0, by norm_num, 0, by norm_num, by norm_num [Wire.vol2]⟩
    have h1 : (∃ i, i < 2 ∧ ∃ k, k < 2 ∧ (99 : ℚ)/100 < Wire.vol2 i 1 k) :=
      ⟨1, by norm_num, 1, by norm_num, by norm_num [Wire.vol2]⟩
    show List.filter _ (List.range 2) = [0, 1]
    rw [show List.range 2 = [0, 1] from rfl]
    rw [List.filter_cons, List.filter_cons]
    simp [h0, h1]
  have hT : Wire.aboveT 2 2 2 Wire.vol2 (99/100) = [0, 1] := by
    have h0 : (∃ i, i < 2 ∧ ∃ j, j < 2 ∧ (99 : ℚ)/100 < Wire.vol2 i j 0) :=
      ⟨0, by norm_num, 0, by norm_num, by norm_num [Wire.vol2]⟩
    have h1 : (∃ i, i < 2 ∧ ∃ j, j < 2 ∧ (99 : ℚ)/100 < Wire.vol2 i j 1) :=
      ⟨1, by norm_num, 1, by norm_num, by norm_num [Wire.vol2]⟩
    show List.filter _ (List.range 2) = [0, 1]
    rw [show List.range 2 = [0, 1] from rfl]
    rw [List.filter_cons, List.filter_cons]
    simp [h0, h1]
  refine ⟨?_, by norm_num [Wire.vol2], ?_, rfl, ?_⟩
  · norm_num [Wire.countAbove, Wire.vol2, Finset.sum_range_succ,
      Finset.range_succ, Finset.filter_insert, Finset.filter_singleton]
  · simp only [Wire.cropBounds, hH, hW, hT]
    rfl
  · norm_num [Wire.countAbove, Wire.croppedData, Wire.vol2,
      Finset.sum_range_succ, Finset.range_succ, Finset.filter_insert,
      Finset.filter_singleton]

namespace Wire

/-! ### IoU metric -/

/-- Modelled from the spec: `modules/volutils.get_IoU`, called by
`wire_occupancy.py` (lines 160, 168, 226), is not part of this
repository's source tree.  Per the spec it binarizes both arrays at the
threshold, returns intersection-count divided by union-count, and is
defined to return `0` when the union is empty. -/
def get_IoU (x xhat : List ℚ) (threshold : ℚ) : ℚ :=
  if ((x.map (fun v => decide (threshold < v))).zip
        (xhat.map (fun v => decide (threshold < v)))).countP
      (fun p => p.1 || p.2) = 0 then 0
  else
    ((((x.map (fun v => decide (threshold < v))).zip
        (xhat.map (fun v => decide (threshold < v)))).countP
      (fun p => p.1 && p.2) : ℕ) : ℚ) /
    ((((x.map (fun v => decide (threshold < v))).zip
        (xhat.map (fun v => decide (threshold < v)))).countP
      (fun p => p.1 || p.2) : ℕ) : ℚ)

theorem get_IoU_self_counts (A : List ℚ) (t : ℚ)
    (p : Bool × Bool → Bool) :
    ((A.map (fun v => decide (t < v))).zip
        (A.map (fun v => decide (t < v)))).countP p =
      A.countP (fun v => p (decide (t < v), decide (t < v))) := by
  rw [List.zip_map', List.countP_map]
  rfl

end Wire

/-- C6 (counterexample): `iou(A, A, t) = 1` fails when no element of `A`
exceeds `t`: for `A = [0]` and `t = 1/2` the binarized union is empty, so
by the spec's own empty-union clause the result is `0`, not `1`. -/
theorem iou_self_counterexample :
    Wire.get_IoU [0] [0] (1/2) = 0 ∧ (0 : ℚ) ≠ 1 := by
  constructor
  · norm_num [Wire.get_IoU]
  · norm_num

/-- C6 (amended): for every array `A` and threshold `t` such that some
element of `A` exceeds `t` (so the binarized union is nonempty),
`iou(A, A, t) = 1`. -/
theorem iou_self_eq_one (A : List ℚ) (t : ℚ) (h : ∃ v ∈ A, t < v) :
    Wire.get_IoU A A t = 1 := by
  have hand := Wire.get_IoU_self_counts A t (fun p => p.1 && p.2)
  have hor := Wire.get_IoU_self_counts A t (fun p => p.1 || p.2)
  simp only [Bool.and_self] at hand
  simp only [Bool.or_self] at hor
  have hc : 0 < A.countP (fun v => decide (t < v)) := by
    rw [List.countP_pos]
    obtain ⟨v, hv, htv⟩ := h
    exact ⟨v, hv, by simpa using htv⟩
  rw [Wire.get_IoU, hand, hor, if_neg (by omega)]
  rw [div_self]
  exact_mod_cast hc.ne'

/-- Witness for `iou_self_eq_one` at `A = [1]`, `t = 1/2`. -/
theorem iou_self_eq_one_witness :
    (∃ v ∈ [(1 : ℚ)], (1 : ℚ)/2 < v) ∧ Wire.get_IoU [1] [1] (1/2) = 1 :=
  ⟨⟨1, by simp, by norm_num⟩,
   iou_self_eq_one [1] (1/2) ⟨1, by simp, by norm_num⟩⟩

namespace Wire

/-! ### Remote-tracker reporting and run survival

Neither script wraps any `wandb` call in `try/except`.  In-loop:
`wire_image_denoise.py` lines 190-191 (`xp.log({...})` when `WANDB_LOG`
is set) and `wire_occupancy.py` lines 164-170.  After the loop both
scripts persist their artifacts (`io.savemat`, `torch.save`, figure/mesh
output) and then issue one more unguarded tracker call
(`wandb.log` line 255 / `wandb.log_artifact` line 250).  An exception
from a reporting call therefore propagates.  The run is modelled at epoch
granularity: `logOk e` tells whether the in-loop reporting call of epoch
`e` succeeds, `finalLogOk` whether the final call does. -/

/-- The reporting call at the end of one epoch's body: raises (`.error`
carrying the epoch index) iff logging is enabled and the tracker call
fails at this epoch. -/
def epochLogStep (logEnabled : Bool) (logOk : ℕ → Bool) (e : ℕ) :
    Except ℕ Unit :=
  if logEnabled && !(logOk e) then .error e else .ok ()

/-- The epoch loop, counting completed epochs and propagating an uncaught
reporting exception; `done` epochs are already completed and `n` remain. -/
def epochLoopLogged (logEnabled : Bool) (logOk : ℕ → Bool) :
    ℕ → ℕ → Except ℕ ℕ
  | done, 0 => .ok done
  | done, n + 1 =>
    match epochLogStep logEnabled logOk done with
    | .error e => .error e
    | .ok _ => epochLoopLogged logEnabled logOk (done + 1) n

/-- Outcome of one whole script run: completed epoch count, whether the
artifacts were persisted (they are written after the epoch loop and
before the final tracker call), and whether the script finished without
an uncaught exception. -/
def runOutcome (niters : ℕ) (logEnabled : Bool) (logOk : ℕ → Bool)
    (finalLogOk : Bool) : ℕ × Bool × Bool :=
  match epochLoopLogged logEnabled logOk 0 niters with
  | .error e => (e, false, false)
  | .ok done => (done, true, finalLogOk)

theorem epochLoopLogged_disabled (logOk : ℕ → Bool) :
    ∀ (n done : ℕ), epochLoopLogged false logOk done n = .ok (done + n) := by
  intro n
  induction n with
  | zero => intro done; rfl
  | succ n ih =>
    intro done
    rw [epochLoopLogged]
    show epochLoopLogged false logOk (done + 1) n = _
    rw [ih]
    congr 1
    omega

theorem epochLoopLogged_ok (logOk : ℕ → Bool) :
    ∀ (n done : ℕ), (∀ i, i < n → logOk (done + i) = true) →
      epochLoopLogged true logOk done n = .ok (done + n) := by
  intro n
  induction n with
  | zero => intro done _; rfl
  | succ n ih =>
    intro done hok
    rw [epochLoopLogged, epochLogStep]
    have h0 : logOk done = true := by simpa using hok 0 (by omega)
    rw [if_neg (by simp [h0])]
    show epochLoopLogged true logOk (done + 1) n = _
    have hrec : ∀ i, i < n → logOk (done + 1 + i) = true := by
      intro i hi
      have h2 := hok (i + 1) (by omega)
      have harith : done + 1 + i = done + (i + 1) := by omega
      rw [harith]
      exact h2
    rw [ih (done + 1) hrec]
    congr 1
    omega

theorem epochLoopLogged_aborts (logOk : ℕ → Bool) :
    ∀ (n done e : ℕ), done ≤ e → e < done + n → logOk e = false →
      (∀ i, done ≤ i → i < e → logOk i = true) →
      epochLoopLogged true logOk done n = .error e := by
  intro n
  induction n with
  | zero => intro done e h1 h2; omega
  | succ n ih =>
    intro done e h1 h2 hfail hbefore
    rw [epochLoopLogged, epochLogStep]
    rcases eq_or_lt_of_le h1 with rfl | hlt
    · rw [if_pos (by simp [hfail])]
    · have hdone : logOk done = true := hbefore done le_rfl hlt
      rw [if_neg (by simp [hdone])]
      exact ih (done + 1) e (by omega) (by omega) hfail
        (fun i hi1 hi2 => hbefore i (by omega) hi2)

end Wire

/-- C8 (counterexample): a failing reporting call does abort the run.
With a 5-epoch budget, logging enabled and the tracker failing at the
very first in-loop call, the run aborts during epoch `0`: it completes
`0` of its `5` epochs and persists no artifacts. -/
theorem reporting_failure_aborts_run :
    Wire.runOutcome 5 true (fun e => decide (e ≠ 0)) true = (0, false, false) ∧
    (0 : ℕ) ≠ 5 := by
  constructor
  · rfl
  · decide

/-- C8 (amended): the run completes its fixed epoch budget and persists
its artifacts when no in-loop reporting call raises — in particular
always when logging is disabled, and even when only the final
post-persistence tracker call fails — but an enabled in-loop reporting
call that raises at its first failing epoch `e` aborts the run there,
with only `e` epochs completed and no artifacts persisted. -/
theorem run_completes_iff_reporting_ok (niters : ℕ) (logOk : ℕ → Bool)
    (finalLogOk : Bool) :
    (Wire.runOutcome niters false logOk finalLogOk =
      (niters, true, finalLogOk)) ∧
    ((∀ e, e < niters → logOk e = true) →
      Wire.runOutcome niters true logOk finalLogOk =
        (niters, true, finalLogOk)) ∧
    (∀ e, e < niters → logOk e = false →
      (∀ i, i < e → logOk i = true) →
      Wire.runOutcome niters true logOk finalLogOk = (e, false, false)) := by
  refine ⟨?_, ?_, ?_⟩
  · rw [Wire.runOutcome, Wire.epochLoopLogged_disabled]
    simp
  · intro hok
    rw [Wire.runOutcome, Wire.epochLoopLogged_ok logOk niters 0
      (fun i hi => by simpa using hok i hi)]
    simp
  · intro e he hfail hbefore
    rw [Wire.runOutcome, Wire.epochLoopLogged_aborts logOk niters 0 e
      (by omega) (by omega) hfail (fun i _ hi2 => hbefore i hi2)]

/-- Witness for `run_completes_iff_reporting_ok` at a 3-epoch budget with
a tracker that fails exactly at epoch `1`. -/
theorem run_completes_iff_reporting_ok_witness :
    Wire.runOutcome 3 false (fun e => decide (e ≠ 1)) true = (3, true, true) ∧
    Wire.runOutcome 3 true (fun _ => true) false = (3, true, false) ∧
    Wire.runOutcome 3 true (fun e => decide (e ≠ 1)) true = (1, false, false) :=
  ⟨(run_completes_iff_reporting_ok 3 (fun e => decide (e ≠ 1)) true).1,
   (run_completes_iff_reporting_ok 3 (fun _ => true) false).2.1
     (fun e _ => rfl),
   (run_completes_iff_reporting_ok 3 (fun e => decide (e ≠ 1)) true).2.2 1
     (by norm_num) (by decide) (by decide)⟩

/-- C1 (counterexample): the claim's characterization of the occupancy
best-reconstruction update is false.  Run the two-epoch trace with
epoch 0: last-minibatch loss `1`, IoU `1/2`, buffer `0`; epoch 1:
last-minibatch loss `2`, IoU `3/4`, buffer `1`.  Epoch 1's IoU strictly
improves on the best IoU seen, so the claim requires Best Reconstruction
to be overwritten with buffer `1`; the code compares the last-minibatch
loss, which worsened, and keeps buffer `0`. -/
theorem best_snapshot_iou_counterexample :
    (Wire.occBestRun ((none, none) : Option ℚ × Option ℕ)
      [(1, 0), (2, 1)]).2 = some 0 ∧
    (Wire.claimOccBestRun ((none, none) : Option ℚ × Option ℕ) 0
      [(1/2, 0), (3/4, 1)]).2 = some 1 ∧
    (1 : ℚ)/2 < 3/4 ∧
    (some 0 : Option ℕ) ≠ some 1 := by
  refine ⟨?_, ?_, by norm_num, by simp⟩
  · norm_num [Wire.occBestRun, Wire.occBestStep, Wire.ltBest]
  · norm_num [Wire.claimOccBestRun, Wire.claimOccBestStep]

/-- C1 (amended): the image run overwrites Best Reconstruction at the end
of an epoch iff that epoch's ground-truth MSE strictly improves on the
best MSE seen in all previous epochs or the epoch is the first; the
occupancy run overwrites iff the epoch's final-minibatch loss strictly
improves on the best such loss seen (with the best initialised to `inf`,
the first epoch always qualifies); in both runs the accumulated best value
is the running strict minimum of the per-epoch tracked values. -/
theorem best_snapshot_characterization {B : Type*} (ts : List (ℚ × B))
    (v : ℚ) (buf : B) :
    (Wire.occBestRun ((none, none) : Option ℚ × Option B)
        (ts ++ [(v, buf)])).2 =
      (if Wire.ltBest v (Wire.runningBest none (ts.map Prod.fst)) then some buf
       else (Wire.occBestRun (none, none) ts).2) ∧
    (Wire.imageBestRun ((none, none) : Option ℚ × Option B) 0
        (ts ++ [(v, buf)])).2 =
      (if Wire.ltBest v (Wire.runningBest none (ts.map Prod.fst)) ||
          (ts.length == 0) then some buf
       else (Wire.imageBestRun (none, none) 0 ts).2) ∧
    (Wire.occBestRun ((none, none) : Option ℚ × Option B) ts).1 =
      Wire.runningBest none (ts.map Prod.fst) := by
  have hfst := Wire.occBestRun_fst ts ((none, none) : Option ℚ × Option B)
  have hocc : (Wire.occBestRun ((none, none) : Option ℚ × Option B)
      (ts ++ [(v, buf)])).2 =
      (if Wire.ltBest v (Wire.runningBest none (ts.map Prod.fst)) then some buf
       else (Wire.occBestRun (none, none) ts).2) := by
    rw [Wire.occBestRun_append, Wire.occBestStep, hfst]
    by_cases h : Wire.ltBest v (Wire.runningBest none (ts.map Prod.fst)) = true
    · rw [if_pos h, if_pos h]
    · rw [if_neg h, if_neg h]
  refine ⟨hocc, ?_, hfst⟩
  rcases eq_or_ne ts [] with rfl | hne
  · simp [Wire.imageBestRun, Wire.imageBestStep, Wire.ltBest, Wire.runningBest]
  · have hlen : (ts.length == 0) = false := by
      rw [beq_eq_false_iff_ne]
      exact fun hc => hne (List.length_eq_zero.mp hc)
    rw [Wire.imageBestRun_zero_eq_occ, Wire.imageBestRun_zero_eq_occ, hlen,
      Bool.or_false]
    exact hocc

/-- C9: one minibatch step writes the model's raw predictions into the
reconstruction buffer exactly at the minibatch's indices — every other
entry of the buffer is unchanged — and the loss and the updated parameter
state of the step do not depend on the buffer at all (the buffer write is
outside the loss graph). -/
theorem minibatch_step_frame {P : Type*} (model : P → ℕ → ℚ)
    (optStep : P → ℚ → P) (target : ℕ → ℚ) (p : P) (rec : ℕ → ℚ)
    (batch : List ℕ) :
    (∀ i, i ∉ batch →
      (Wire.trainStep model optStep target p rec batch).1 i = rec i) ∧
    (∀ i, i ∈ batch →
      (Wire.trainStep model optStep target p rec batch).1 i = model p i) ∧
    (∀ rec2 : ℕ → ℚ,
      (Wire.trainStep model optStep target p rec batch).2 =
        (Wire.trainStep model optStep target p rec2 batch).2) := by
  refine ⟨?_, ?_, ?_⟩
  · intro i hi
    simp [Wire.trainStep, hi]
  · intro i hi
    simp [Wire.trainStep, hi]
  · intro rec2
    rfl

/-- Witness for `minibatch_step_frame` with a one-parameter model,
buffer constantly `5`, batch `[0, 2]`: index `1` is untouched, index `2`
receives the prediction, and the (loss, updated parameters) pair is the
same for buffer constantly `7`. -/
theorem minibatch_step_frame_witness :
    (Wire.trainStep (fun (p : ℚ) i => p + i) (fun p l => p + l) (fun _ => 0)
      1 (fun _ => 5) [0, 2]).1 1 = 5 ∧
    (Wire.trainStep (fun (p : ℚ) i => p + i) (fun p l => p + l) (fun _ => 0)
      1 (fun _ => 5) [0, 2]).1 2 = 1 + (2 : ℕ) ∧
    (Wire.trainStep (fun (p : ℚ) i => p + i) (fun p l => p + l) (fun _ => 0)
      1 (fun _ => 5) [0, 2]).2 =
      (Wire.trainStep (fun (p : ℚ) i => p + i) (fun p l => p + l) (fun _ => 0)
        1 (fun _ => 7) [0, 2]).2 :=
  ⟨(minibatch_step_frame (fun (p : ℚ) i => p + i) (fun p l => p + l)
      (fun _ => 0) 1 (fun _ => 5) [0, 2]).1 1 (by decide),
   (minibatch_step_frame (fun (p : ℚ) i => p + i) (fun p l => p + l)
      (fun _ => 0) 1 (fun _ => 5) [0, 2]).2.1 2 (by decide),
   (minibatch_step_frame (fun (p : ℚ) i => p + i) (fun p l => p + l)
      (fun _ => 0) 1 (fun _ => 5) [0, 2]).2.2 (fun _ => 7)⟩

/-- C7: the epoch loss reported at the end of an epoch — `train_loss / cnt`
from the accumulation loop — equals the arithmetic mean of the
per-minibatch mean-squared-error losses of that epoch: the sum of the
per-minibatch losses divided by the number of minibatches, each minibatch
weighted equally regardless of its size. -/
theorem epoch_loss_is_mean_of_minibatch_means {P : Type*}
    (model : P → ℕ → ℚ) (optStep : P → ℚ → P) (target : ℕ → ℚ) (p : P)
    (rec : ℕ → ℚ) (batches : List (List ℕ)) :
    ((Wire.epochLoop model optStep target p rec 0 0 batches).2.2.1 /
        ((Wire.epochLoop model optStep target p rec 0 0 batches).2.2.2 : ℚ)) =
      (Wire.epochLossSeq model optStep target p rec batches).sum /
        ((Wire.epochLossSeq model optStep target p rec batches).length : ℚ) := by
  rw [Wire.epochLoop_trainLoss, Wire.epochLoop_cnt, Wire.epochLossSeq_length]
  rw [zero_add, Nat.zero_add]

/-- C4: a training epoch partitions a permutation `l` of the sample
indices `0, ..., n-1` into contiguous minibatches in order: concatenating
the minibatches gives back the permutation, each sample index appears
exactly once across the epoch's minibatches, every minibatch except
possibly the last has exactly `bs` indices, and the sequence of minibatch
sizes is `n / bs` full batches followed by the unpadded remainder
`n % bs` exactly when `bs` does not divide `n`. -/
theorem minibatch_partition (bs n : ℕ) (l : List ℕ) (hbs : 0 < bs)
    (hperm : l.Perm (List.range n)) :
    (Wire.batchChunks bs l).flatten = l ∧
    (∀ k, k < n → ((Wire.batchChunks bs l).flatten.count k = 1)) ∧
    (∀ c ∈ (Wire.batchChunks bs l).dropLast, c.length = bs) ∧
    ((Wire.batchChunks bs l).map List.length =
      List.replicate (n / bs) bs ++ (if n % bs = 0 then [] else [n % bs])) := by
  have hlen : l.length = n := by
    rw [hperm.length_eq, List.length_range]
  refine ⟨Wire.batchChunks_join bs hbs l, ?_, Wire.batchChunks_dropLast_length bs hbs l, ?_⟩
  · intro k hk
    rw [Wire.batchChunks_join bs hbs l, hperm.count_eq]
    exact List.count_eq_one_of_mem (List.nodup_range n) (List.mem_range.mpr hk)
  · rw [Wire.batchChunks_length_map bs hbs l, hlen]

/-- Witness for `minibatch_partition` with batch size `2` and the
permutation `[1, 0, 2]` of `range 3`. -/
theorem minibatch_partition_witness :
    (Wire.batchChunks 2 [1, 0, 2]).flatten = [1, 0, 2] ∧
    (∀ k, k < 3 → ((Wire.batchChunks 2 [1, 0, 2]).flatten.count k = 1)) ∧
    (∀ c ∈ (Wire.batchChunks 2 [1, 0, 2]).dropLast, c.length = 2) ∧
    ((Wire.batchChunks 2 [1, 0, 2]).map List.length =
      List.replicate (3 / 2) 2 ++ (if 3 % 2 = 0 then [] else [3 % 2])) :=
  minibatch_partition 2 3 [1, 0, 2] (by norm_num) (by decide)

/-- C3: for every epoch `e` with total budget `N` and decay factor `d`
(`0 < d ≤ 1`, covering `0.1` and `0.2`), the learning-rate multiplier is
`d ^ min (e / N) 1`; it is `1` at epoch `0`, equals `d` for every
`e ≥ N`, and is monotonically non-increasing in `e`. -/
theorem scheduler_lambda_decay (d : ℝ) (N : ℕ) (hd0 : 0 < d) (hd1 : d ≤ 1)
    (hN : 0 < N) :
    Wire.schedulerLambda d N 0 = 1 ∧
    (∀ e : ℕ, N ≤ e → Wire.schedulerLambda d N e = d) ∧
    (∀ e₁ e₂ : ℕ, e₁ ≤ e₂ →
      Wire.schedulerLambda d N e₂ ≤ Wire.schedulerLambda d N e₁) := by
  have hNR : (0 : ℝ) < (N : ℝ) := by exact_mod_cast hN
  refine ⟨?_, ?_, ?_⟩
  · simp [Wire.schedulerLambda]
  · intro e he
    have h1 : (1 : ℝ) ≤ (e : ℝ) / (N : ℝ) := by
      rw [le_div_iff hNR]
      simpa using (by exact_mod_cast he : (N : ℝ) ≤ (e : ℝ))
    have : min ((e : ℝ) / (N : ℝ)) 1 = 1 := min_eq_right h1
    rw [Wire.schedulerLambda, this, Real.rpow_one]
  · intro e₁ e₂ h
    apply Real.rpow_le_rpow_of_exponent_ge hd0 hd1
    apply min_le_min _ le_rfl
    apply (div_le_div_right hNR).mpr
    exact_mod_cast h

/-- Witness for `scheduler_lambda_decay` at `d = 1/2`, `N = 2`. -/
theorem scheduler_lambda_decay_witness :
    Wire.schedulerLambda (1/2) 2 0 = 1 ∧
    (∀ e : ℕ, 2 ≤ e → Wire.schedulerLambda (1/2) 2 e = 1/2) ∧
    (∀ e₁ e₂ : ℕ, e₁ ≤ e₂ →
      Wire.schedulerLambda (1/2) 2 e₂ ≤ Wire.schedulerLambda (1/2) 2 e₁) :=
  scheduler_lambda_decay (1/2) 2 (by norm_num) (by norm_num) (by norm_num)

/-- C10: the image-denoising optimizer's initial learning rate is the base
rate times `min 1 (maxpoints / n)`: for `n > maxpoints` it is the base rate
scaled down proportionally (strictly below the base rate), for
`n ≤ maxpoints` it is the base rate unchanged; the occupancy optimizer uses
the unscaled base rate. -/
theorem image_optim_lr_scaling (lr : ℚ) (maxpoints n : ℕ)
    (hlr : 0 < lr) (hn : 0 < n) :
    (maxpoints < n →
      Wire.imageOptimLR lr maxpoints n = lr * maxpoints / n ∧
      Wire.imageOptimLR lr maxpoints n < lr) ∧
    (n ≤ maxpoints → Wire.imageOptimLR lr maxpoints n = lr) ∧
    Wire.occOptimLR lr = lr := by
  have hnQ : (0 : ℚ) < (n : ℚ) := by exact_mod_cast hn
  refine ⟨?_, ?_, rfl⟩
  · intro hmn
    have hlt : (maxpoints : ℚ) / (n : ℚ) < 1 := by
      rw [div_lt_one hnQ]
      exact_mod_cast hmn
    have hmin : min 1 ((maxpoints : ℚ) / (n : ℚ)) = (maxpoints : ℚ) / (n : ℚ) :=
      min_eq_right hlt.le
    constructor
    · rw [Wire.imageOptimLR, hmin, mul_div_assoc]
    · rw [Wire.imageOptimLR, hmin]
      calc lr * ((maxpoints : ℚ) / (n : ℚ)) < lr * 1 := by
            exact mul_lt_mul_of_pos_left hlt hlr
        _ = lr := mul_one lr
  · intro hnm
    have h1 : (1 : ℚ) ≤ (maxpoints : ℚ) / (n : ℚ) := by
      rw [le_div_iff hnQ]
      simpa using (by exact_mod_cast hnm : (n : ℚ) ≤ (maxpoints : ℚ))
    rw [Wire.imageOptimLR, min_eq_left h1, mul_one]

/-- Witness for `image_optim_lr_scaling` at `lr = 1/200`, batch `4`,
image sizes `8` (larger than the batch) and `2` (smaller). -/
theorem image_optim_lr_scaling_witness :
    ((4 : ℕ) < 8 →
      Wire.imageOptimLR (1/200) 4 8 = (1/200) * 4 / 8 ∧
      Wire.imageOptimLR (1/200) 4 8 < 1/200) ∧
    ((2 : ℕ) ≤ 4 → Wire.imageOptimLR (1/200) 4 2 = 1/200) ∧
    Wire.occOptimLR (1/200) = 1/200 :=
  ⟨(image_optim_lr_scaling (1/200) 4 8 (by norm_num) (by norm_num)).1,
   (image_optim_lr_scaling (1/200) 4 2 (by norm_num) (by norm_num)).2.1,
   (image_optim_lr_scaling (1/200) 4 2 (by norm_num) (by norm_num)).2.2⟩
